import Mathlib

/- Formal verification development for the stacks-discord-scraper repository.
   The JavaScript sources are shallowly embedded as executable Lean
   definitions: pure functions become Lean functions, database tables become
   lists or finite maps passed explicitly, and the stateful loops become
   structural recursions.  Theorems below check the specification claims
   against these embeddings. -/

namespace Scraper

/-! ## Token estimation and batching (src/ai/tokens.js) -/

/-- estimateTokens from src/ai/tokens.js (lines 9-12): an empty (falsy)
string gives 0, otherwise Math.ceil(text.length / 4). -/
def estimateTokens (text : String) : Nat :=
  if text.length = 0 then 0 else (text.length + 3) / 4

/-- The loop of createBatches from src/ai/tokens.js (lines 56-80), recursing
over the remaining messages.  A message is represented by its JSON
serialisation, which is exactly the string the per-item token estimate
is computed from (line 61).  cur is currentBatch, curTok is currentTokens.
The flush condition mirrors lines 64-67 and the trailing non-empty batch
is emitted as in lines 78-80. -/
def createBatchesGo (maxTokens maxMessages : Nat) :
    List String → List String → Nat → List (List String)
  | [], cur, _ => if 0 < cur.length then [cur] else []
  | m :: ms, cur, curTok =>
    let messageTokens := estimateTokens m
    if (maxTokens < curTok + messageTokens ∧ 0 < cur.length) ∨
        maxMessages ≤ cur.length then
      cur :: createBatchesGo maxTokens maxMessages ms [m] messageTokens
    else
      createBatchesGo maxTokens maxMessages ms (cur ++ [m]) (curTok + messageTokens)

/-- createBatches from src/ai/tokens.js (lines 49-83): greedy single pass
starting from an empty current batch with zero accumulated tokens. -/
def createBatches (messages : List String) (maxTokens maxMessages : Nat) :
    List (List String) :=
  createBatchesGo maxTokens maxMessages messages [] 0

theorem createBatchesGo_flatten (T M : Nat) :
    ∀ (ms cur : List String) (curTok : Nat),
      (createBatchesGo T M ms cur curTok).flatten = cur ++ ms := by
  intro ms
  induction ms with
  | nil =>
    intro cur curTok
    by_cases h : 0 < cur.length
    · simp [createBatchesGo, h]
    · have hcur : cur = [] := List.length_eq_zero.mp (Nat.le_zero.mp (Nat.not_lt.mp h))
      simp [createBatchesGo, h, hcur]
  | cons m ms ih =>
    intro cur curTok
    simp only [createBatchesGo]
    by_cases h : (T < curTok + estimateTokens m ∧ 0 < cur.length) ∨ M ≤ cur.length
    · simp only [if_pos h, List.flatten_cons, ih, List.singleton_append]
    · simp only [if_neg h, ih, List.append_assoc, List.singleton_append]

theorem createBatchesGo_count (T M : Nat) (hM : 0 < M) :
    ∀ (ms cur : List String) (curTok : Nat), cur.length ≤ M →
      ∀ b ∈ createBatchesGo T M ms cur curTok, b.length ≤ M := by
  intro ms
  induction ms with
  | nil =>
    intro cur curTok hcur b hb
    by_cases h : 0 < cur.length
    · simp [createBatchesGo, h] at hb
      exact hb ▸ hcur
    · simp [createBatchesGo, h] at hb
  | cons m ms ih =>
    intro cur curTok hcur b hb
    simp only [createBatchesGo] at hb
    by_cases h : (T < curTok + estimateTokens m ∧ 0 < cur.length) ∨ M ≤ cur.length
    · rw [if_pos h] at hb
      rcases List.mem_cons.mp hb with hb | hb
      · exact hb ▸ hcur
      · exact ih [m] (estimateTokens m) (by simpa using hM) b hb
    · rw [if_neg h] at hb
      push_neg at h
      have hlt : cur.length < M := h.2
      exact ih (cur ++ [m]) (curTok + estimateTokens m) (by simpa using hlt) b hb

/-- The invariant satisfied by every emitted batch: its token sum fits the
cap, or it is a single message that is on its own larger than the cap. -/
def BatchOk (T : Nat) (b : List String) : Prop :=
  (b.map estimateTokens).sum ≤ T ∨ ∃ m, b = [m] ∧ T < estimateTokens m

theorem batchOk_single (T : Nat) (m : String) : BatchOk T [m] := by
  by_cases h : estimateTokens m ≤ T
  · exact Or.inl (by simpa using h)
  · exact Or.inr ⟨m, rfl, Nat.not_le.mp h⟩

theorem createBatchesGo_tokens (T M : Nat) :
    ∀ (ms cur : List String) (curTok : Nat),
      curTok = (cur.map estimateTokens).sum → BatchOk T cur →
      ∀ b ∈ createBatchesGo T M ms cur curTok, BatchOk T b := by
  intro ms
  induction ms with
  | nil =>
    intro cur curTok _ hok b hb
    by_cases h : 0 < cur.length
    · simp [createBatchesGo, h] at hb
      exact hb ▸ hok
    · simp [createBatchesGo, h] at hb
  | cons m ms ih =>
    intro cur curTok htok hok b hb
    simp only [createBatchesGo] at hb
    by_cases h : (T < curTok + estimateTokens m ∧ 0 < cur.length) ∨ M ≤ cur.length
    · rw [if_pos h] at hb
      rcases List.mem_cons.mp hb with hb | hb
      · exact hb ▸ hok
      · exact ih [m] (estimateTokens m) (by simp) (batchOk_single T m) b hb
    · rw [if_neg h] at hb
      push_neg at h
      rcases Nat.eq_zero_or_pos cur.length with hz | hp
      · have hcur : cur = [] := List.length_eq_zero.mp hz
        subst hcur
        simp only [List.map_nil, List.sum_nil] at htok
        subst htok
        refine ih [m] (0 + estimateTokens m) (by simp) (batchOk_single T m) b ?_
        simpa using hb
      · have hle : curTok + estimateTokens m ≤ T :=
          Nat.not_lt.mp (fun hlt => (Nat.not_lt.mpr (h.1 hlt)) hp)
        refine ih (cur ++ [m]) (curTok + estimateTokens m) (by simp [htok]) ?_ b hb
        refine Or.inl ?_
        simpa [← htok] using hle

/-- C1: for every input list of messages (represented by their JSON
serialisations) and positive caps, createBatches returns batches whose
concatenation is the input in order, no batch has more than maxMessages
items, and every batch's summed token estimates fit in maxTokens unless
the batch is a single message whose own estimate already exceeds
maxTokens. -/
theorem createBatches_spec (messages : List String) (maxTokens maxMessages : Nat)
    (_hT : 0 < maxTokens) (hM : 0 < maxMessages) :
    (createBatches messages maxTokens maxMessages).flatten = messages ∧
    (∀ b ∈ createBatches messages maxTokens maxMessages, b.length ≤ maxMessages) ∧
    (∀ b ∈ createBatches messages maxTokens maxMessages,
      (b.map estimateTokens).sum ≤ maxTokens ∨
        ∃ m, b = [m] ∧ maxTokens < estimateTokens m) := by
  refine ⟨?_, ?_, ?_⟩
  · simpa using createBatchesGo_flatten maxTokens maxMessages messages [] 0
  · exact createBatchesGo_count maxTokens maxMessages hM messages [] 0 (by simp)
  · exact createBatchesGo_tokens maxTokens maxMessages messages [] 0 (by simp)
      (Or.inl (by simp))

/-- Witness for createBatches_spec at a concrete input: four messages of
estimated sizes 1, 2, 3 and 9 tokens with caps maxTokens = 5 and
maxMessages = 2. -/
theorem createBatches_spec_witness :
    0 < 5 ∧ 0 < 2 ∧
    ((createBatches ["abc", "abcdefg", "abcdefghijk",
        "abcdefghijklmnopqrstuvwxyz0123456789"] 5 2).flatten =
      ["abc", "abcdefg", "abcdefghijk",
        "abcdefghijklmnopqrstuvwxyz0123456789"] ∧
    (∀ b ∈ createBatches ["abc", "abcdefg", "abcdefghijk",
        "abcdefghijklmnopqrstuvwxyz0123456789"] 5 2, b.length ≤ 2) ∧
    (∀ b ∈ createBatches ["abc", "abcdefg", "abcdefghijk",
        "abcdefghijklmnopqrstuvwxyz0123456789"] 5 2,
      (b.map estimateTokens).sum ≤ 5 ∨ ∃ m, b = [m] ∧ 5 < estimateTokens m)) :=
  ⟨by decide, by decide,
    createBatches_spec ["abc", "abcdefg", "abcdefghijk",
      "abcdefghijklmnopqrstuvwxyz0123456789"] 5 2 (by decide) (by decide)⟩

/-! ## Channel cursor tracking (src/cli/commands scrape, storage repositories)

The per-channel loop of scrapeCommand upserts every yielded message and
tracks latestMessageId with the string comparison
`if (!latestMessageId || data.message.id > latestMessageId)`; on channel
completion it calls updateChannelLastScraped only when latestMessageId is
non-null.  Message ids are strings compared lexicographically. -/

/-- The latestMessageId fold of scrapeCommand (lines 356-360 of the scrape
command): starting from null, replace the running value whenever the next
yielded id is strictly greater in the lexicographic string order. -/
def trackLatest (ids : List String) : Option String :=
  ids.foldl
    (fun latest i =>
      match latest with
      | none => some i
      | some l => if l < i then some i else some l)
    none

/-- updateChannelLastScraped from src/storage/repositories/index.js
(lines 58-67), on a channels table modelled as a map from channel id to the
stored last_scraped_message_id. -/
def updateChannelLastScraped (tbl : String → Option String)
    (channelId messageId : String) : String → Option String :=
  fun c => if c = channelId then some messageId else tbl c

/-- The cursor effect of one completed channel scrape in scrapeCommand
(lines 356-373): ids are the ids of the messages yielded by fetchMessages
and persisted via upsertMessage, in yield order; the cursor is written only
when at least one message was yielded. -/
def scrapeChannelCursor (tbl : String → Option String) (channelId : String)
    (ids : List String) : String → Option String :=
  match trackLatest ids with
  | some l => updateChannelLastScraped tbl channelId l
  | none => tbl

theorem trackLatest_some (l : String) :
    ∀ (ids : List String),
      ∃ m, (ids.foldl
          (fun latest i =>
            match latest with
            | none => some i
            | some l => if l < i then some i else some l)
          (some l)) = some m ∧
        (m = l ∨ m ∈ ids) ∧ l ≤ m ∧ ∀ i ∈ ids, i ≤ m := by
  intro ids
  induction ids generalizing l with
  | nil => exact ⟨l, rfl, Or.inl rfl, le_refl l, by simp⟩
  | cons i ids ih =>
    simp only [List.foldl_cons]
    by_cases h : l < i
    · rw [if_pos h]
      obtain ⟨m, hm, hmem, hle, hall⟩ := ih i
      refine ⟨m, hm, ?_, le_of_lt (lt_of_lt_of_le h hle), ?_⟩
      · rcases hmem with hm' | hm' <;> simp [hm']
      · intro j hj
        rcases List.mem_cons.mp hj with hj | hj
        · exact hj ▸ hle
        · exact hall j hj
    · rw [if_neg h]
      obtain ⟨m, hm, hmem, hle, hall⟩ := ih l
      refine ⟨m, hm, ?_, hle, ?_⟩
      · rcases hmem with hm' | hm' <;> simp [hm']
      · intro j hj
        rcases List.mem_cons.mp hj with hj | hj
        · exact hj ▸ le_trans (le_of_not_lt h) hle
        · exact hall j hj

theorem trackLatest_nil : trackLatest [] = none := rfl

theorem trackLatest_max (ids : List String) (h : ids ≠ []) :
    ∃ m, trackLatest ids = some m ∧ m ∈ ids ∧ ∀ i ∈ ids, i ≤ m := by
  match ids, h with
  | i :: ids, _ =>
    obtain ⟨m, hm, hmem, hle, hall⟩ := trackLatest_some i ids
    refine ⟨m, hm, ?_, ?_⟩
    · rcases hmem with hm' | hm' <;> simp [hm']
    · intro j hj
      rcases List.mem_cons.mp hj with hj | hj
      · exact hj ▸ hle
      · exact hall j hj

/-- C2: after a channel scrape completes with at least one yielded message,
the stored last_scraped_message_id for that channel is the lexicographic
maximum of the ids persisted in that pass; and a pass that yields no
messages leaves the whole channels table unchanged. -/
theorem scrapeChannelCursor_spec (tbl : String → Option String)
    (channelId : String) (ids : List String) (h : ids ≠ []) :
    (∃ m, scrapeChannelCursor tbl channelId ids channelId = some m ∧
        m ∈ ids ∧ ∀ i ∈ ids, i ≤ m) ∧
    ∀ (tbl' : String → Option String) (ch : String),
      scrapeChannelCursor tbl' ch [] = tbl' := by
  constructor
  · obtain ⟨m, hm, hmem, hall⟩ := trackLatest_max ids h
    exact ⟨m, by simp [scrapeChannelCursor, hm, updateChannelLastScraped],
      hmem, hall⟩
  · intro tbl' ch
    simp [scrapeChannelCursor, trackLatest_nil]

/-- Witness for scrapeChannelCursor_spec: the spec's own fixture, ids
"100", "300", "200" in some yield order; the resulting cursor is "300". -/
theorem scrapeChannelCursor_spec_witness :
    ["100", "300", "200"] ≠ ([] : List String) ∧
    ((∃ m, scrapeChannelCursor (fun _ => none) "C1" ["100", "300", "200"] "C1"
          = some m ∧ m ∈ ["100", "300", "200"] ∧
          ∀ i ∈ ["100", "300", "200"], i ≤ m) ∧
      ∀ (tbl' : String → Option String) (ch : String),
        scrapeChannelCursor tbl' ch [] = tbl') :=
  ⟨by decide,
    scrapeChannelCursor_spec (fun _ => none) "C1" ["100", "300", "200"]
      (by decide)⟩

/-! ## Message upsert (src/storage/repositories/index.js) -/

/-- A row of the messages table, with the columns named in upsertMessage
(src/storage/repositories/index.js lines 106-127). -/
structure MessageRow where
  id : String
  channel_id : String
  author_id : String
  content : Option String
  clean_content : Option String
  timestamp : String
  edited_timestamp : Option String
  message_type : Nat
  reference_id : Option String
  thread_id : Option String
  has_embeds : Nat
  has_attachments : Nat
  reaction_count : Nat
  deriving DecidableEq, Repr

/-- The ON CONFLICT(id) DO UPDATE SET clause of upsertMessage (lines
118-124): only content, clean_content, edited_timestamp, has_embeds,
has_attachments and reaction_count take the excluded (new) values. -/
def upsertMessageOnConflict (r m : MessageRow) : MessageRow :=
  { r with
    content := m.content
    clean_content := m.clean_content
    edited_timestamp := m.edited_timestamp
    has_embeds := m.has_embeds
    has_attachments := m.has_attachments
    reaction_count := m.reaction_count }

/-- upsertMessage from src/storage/repositories/index.js (lines 106-127) on
a messages table modelled as a list of rows: insert when no row has the id,
otherwise apply the DO UPDATE clause to the conflicting row. -/
def upsertMessage (tbl : List MessageRow) (m : MessageRow) : List MessageRow :=
  if tbl.any (fun r => r.id = m.id) then
    tbl.map (fun r => if r.id = m.id then upsertMessageOnConflict r m else r)
  else
    tbl ++ [m]

/-- SELECT * FROM messages WHERE id = ? on the modelled table. -/
def findMessage (tbl : List MessageRow) (id : String) : Option MessageRow :=
  tbl.find? (fun r => r.id = id)

theorem find?_map_of_find? (tbl : List MessageRow) (m r : MessageRow)
    (h : tbl.find? (fun r => r.id = m.id) = some r) :
    (tbl.map (fun r => if r.id = m.id then upsertMessageOnConflict r m else r)).find?
        (fun r => r.id = m.id) = some (upsertMessageOnConflict r m) := by
  induction tbl with
  | nil => simp at h
  | cons a tbl ih =>
    by_cases ha : a.id = m.id
    · rw [List.find?_cons_of_pos _ (by simpa using ha)] at h
      injection h with h
      subst h
      simp only [List.map_cons, if_pos ha]
      rw [List.find?_cons_of_pos]
      simp [upsertMessageOnConflict, ha]
    · rw [List.find?_cons_of_neg _ (by simpa using ha)] at h
      simp only [List.map_cons, if_neg ha]
      rw [List.find?_cons_of_neg _ (by simpa using ha)]
      exact ih h

/-- C6: upserting a message whose id already has a row updates only the
mutable columns (content, clean_content, edited_timestamp, has_embeds,
has_attachments, reaction_count) of that row, and leaves timestamp, id,
channel_id, author_id, message_type, reference_id and thread_id exactly as
stored; in particular the stored timestamp is never rewritten. -/
theorem upsertMessage_existing (tbl : List MessageRow) (m r : MessageRow)
    (h : findMessage tbl m.id = some r) :
    ∃ u, findMessage (upsertMessage tbl m) m.id = some u ∧
      u.timestamp = r.timestamp ∧
      u.id = r.id ∧
      u.channel_id = r.channel_id ∧
      u.author_id = r.author_id ∧
      u.message_type = r.message_type ∧
      u.reference_id = r.reference_id ∧
      u.thread_id = r.thread_id ∧
      u.content = m.content ∧
      u.clean_content = m.clean_content ∧
      u.edited_timestamp = m.edited_timestamp ∧
      u.has_embeds = m.has_embeds ∧
      u.has_attachments = m.has_attachments ∧
      u.reaction_count = m.reaction_count := by
  have hany : tbl.any (fun r => r.id = m.id) = true := by
    have hmem := List.mem_of_find?_eq_some h
    have hpred := List.find?_some h
    simp only [decide_eq_true_eq] at hpred
    exact List.any_eq_true.mpr ⟨r, hmem, by simpa using hpred⟩
  refine ⟨upsertMessageOnConflict r m, ?_, ?_⟩
  · unfold upsertMessage findMessage
    rw [if_pos hany]
    exact find?_map_of_find? tbl m r h
  · simp [upsertMessageOnConflict]

/-- Witness for upsertMessage_existing: a stored row for id "m1" and a
re-encountered edited version of the same message. -/
theorem upsertMessage_existing_witness :
    findMessage
        [⟨"m1", "c1", "u1", some "old", some "old", "2024-01-01T00:00:00Z",
          none, 0, none, none, 0, 0, 0⟩]
        "m1" =
      some ⟨"m1", "c1", "u1", some "old", some "old", "2024-01-01T00:00:00Z",
        none, 0, none, none, 0, 0, 0⟩ ∧
    ∃ u,
      findMessage
          (upsertMessage
            [⟨"m1", "c1", "u1", some "old", some "old", "2024-01-01T00:00:00Z",
              none, 0, none, none, 0, 0, 0⟩]
            ⟨"m1", "c9", "u9", some "new", some "new", "2025-12-31T00:00:00Z",
              some "2025-12-31T01:00:00Z", 7, some "ref", some "th", 1, 1, 5⟩)
          "m1" = some u ∧
      u.timestamp = "2024-01-01T00:00:00Z" ∧
      u.id = "m1" ∧
      u.channel_id = "c1" ∧
      u.author_id = "u1" ∧
      u.message_type = 0 ∧
      u.reference_id = none ∧
      u.thread_id = none ∧
      u.content = some "new" ∧
      u.clean_content = some "new" ∧
      u.edited_timestamp = some "2025-12-31T01:00:00Z" ∧
      u.has_embeds = 1 ∧
      u.has_attachments = 1 ∧
      u.reaction_count = 5 :=
  ⟨by decide,
    upsertMessage_existing
      [⟨"m1", "c1", "u1", some "old", some "old", "2024-01-01T00:00:00Z",
        none, 0, none, none, 0, 0, 0⟩]
      ⟨"m1", "c9", "u9", some "new", some "new", "2025-12-31T00:00:00Z",
        some "2025-12-31T01:00:00Z", 7, some "ref", some "th", 1, 1, 5⟩
      ⟨"m1", "c1", "u1", some "old", some "old", "2024-01-01T00:00:00Z",
        none, 0, none, none, 0, 0, 0⟩
      (by decide)⟩

/-! ## AI processing memoization (src/storage/repositories/index.js)

shouldProcess (lines 322-338) takes the processed_at of the existing
ai_processing row via getAIProcessing (none when no row exists), the force
flag and reprocessAfterDays (default 30).  Timestamps are milliseconds
since the epoch, as produced by Date.now() and Date.getTime().  A Nat
reprocessAfterDays is falsy in JavaScript exactly when it is 0, so the
age check on lines 331-335 runs only when reprocessAfterDays is nonzero. -/

/-- shouldProcess from src/storage/repositories/index.js (lines 322-338);
existing is the processed_at timestamp of the stored row, now is
Date.now(), both in ms. -/
def shouldProcess (existing : Option Int) (force : Bool)
    (reprocessAfterDays : Nat) (now : Int) : Bool :=
  if force then true
  else
    match existing with
    | none => true
    | some t =>
      if reprocessAfterDays ≠ 0 then
        decide ((reprocessAfterDays : Int) * 24 * 60 * 60 * 1000 < now - t)
      else false

/-- C7 counterexample: with reprocessAfterDays = 0, force unset and an
existing row one full day old, the claim says shouldProcess returns true
(the row is older than 0 days), but the code returns false because 0 is
falsy and the age check is skipped. -/
theorem shouldProcess_claim_counterexample :
    shouldProcess (some 0) false 0 86400000 = false ∧
    (0 : Int) * 24 * 60 * 60 * 1000 < 86400000 - 0 := by
  constructor
  · rfl
  · decide

/-- C7 amended: shouldProcess returns true exactly when force is set, or no
row exists, or reprocessAfterDays is nonzero and the row is older than
reprocessAfterDays days; with reprocessAfterDays = 0 an existing row is
never reprocessed unless force is set. -/
theorem shouldProcess_spec (existing : Option Int) (force : Bool)
    (reprocessAfterDays : Nat) (now : Int) :
    shouldProcess existing force reprocessAfterDays now = true ↔
      (force = true ∨ existing = none ∨
        (reprocessAfterDays ≠ 0 ∧ ∃ t, existing = some t ∧
          (reprocessAfterDays : Int) * 24 * 60 * 60 * 1000 < now - t)) := by
  cases force with
  | true => simp [shouldProcess]
  | false =>
    cases existing with
    | none => simp [shouldProcess]
    | some t =>
      by_cases hr : reprocessAfterDays = 0
      · simp [shouldProcess, hr]
      · simp [shouldProcess, hr]

/-! ## Categorize response validation (src/ai/validation.js)

categorizeResponseSchema lists six item properties but marks only id and
primary_topic as required; the three enum fields constrain a value only
when the property is present, as JSON Schema prescribes and Ajv
implements.  validateResponse raises an error exactly when the compiled
validator returns false; we model the validator as a boolean predicate,
true meaning the response is accepted. -/

/-- One element of the categorizations array; a field is none when the
property is absent from the JSON object. -/
structure CatItem where
  id : Option String
  primary_topic : Option String
  secondary_topics : Option (List String)
  sentiment : Option String
  urgency : Option String
  marketing_relevance : Option String
  deriving DecidableEq, Repr

/-- JSON Schema enum keyword for an optional string property: vacuously
true when the property is absent. -/
def inEnum (v : Option String) (allowed : List String) : Bool :=
  match v with
  | none => true
  | some s => allowed.contains s

/-- The per-item check compiled from categorizeResponseSchema
(src/ai/validation.js lines 180-200): required id and primary_topic,
enum checks for sentiment, urgency and marketing_relevance. -/
def validCategorizeItem (it : CatItem) : Bool :=
  it.id.isSome && it.primary_topic.isSome &&
    inEnum it.sentiment ["positive", "neutral", "negative", "mixed"] &&
    inEnum it.urgency ["high", "medium", "low"] &&
    inEnum it.marketing_relevance ["high", "medium", "low"]

/-- Acceptance of a parsed categorize response, a list standing for the
required categorizations array: validateResponse throws exactly when this
is false. -/
def validateCategorizeResponse (categorizations : List CatItem) : Bool :=
  categorizations.all validCategorizeItem

/-- C9 counterexample: a response whose single item carries only id and
primary_topic is accepted by the validator, although the claim says a
response missing sentiment, urgency or marketing_relevance is rejected. -/
theorem validateCategorize_claim_counterexample :
    validateCategorizeResponse
        [⟨some "1", some "governance", none, none, none, none⟩] = true := by
  decide

/-- C9 amended: the categorize validator rejects a response exactly when
some item is missing id or primary_topic (the only fields the schema marks
required) or some present enum field has a value outside its enum; it
accepts every response whose items all carry id and primary_topic with any
present sentiment, urgency and marketing_relevance values in the stated
enums. -/
theorem validateCategorize_spec (categorizations : List CatItem) :
    validateCategorizeResponse categorizations = true ↔
      ∀ it ∈ categorizations,
        it.id.isSome = true ∧ it.primary_topic.isSome = true ∧
        (∀ s, it.sentiment = some s →
          s ∈ ["positive", "neutral", "negative", "mixed"]) ∧
        (∀ s, it.urgency = some s → s ∈ ["high", "medium", "low"]) ∧
        (∀ s, it.marketing_relevance = some s →
          s ∈ ["high", "medium", "low"]) := by
  simp only [validateCategorizeResponse, List.all_eq_true]
  refine forall_congr' fun it => forall_congr' fun _ => ?_
  simp only [validCategorizeItem, Bool.and_eq_true]
  constructor
  · rintro ⟨⟨⟨⟨hid, hpt⟩, hs⟩, hu⟩, hm⟩
    refine ⟨hid, hpt, ?_, ?_, ?_⟩
    · intro s hs'
      rw [hs'] at hs
      simpa [inEnum] using hs
    · intro s hs'
      rw [hs'] at hu
      simpa [inEnum] using hu
    · intro s hs'
      rw [hs'] at hm
      simpa [inEnum] using hm
  · rintro ⟨hid, hpt, hs, hu, hm⟩
    refine ⟨⟨⟨⟨hid, hpt⟩, ?_⟩, ?_⟩, ?_⟩
    · cases h : it.sentiment with
      | none => simp [inEnum]
      | some v => simpa [inEnum] using hs v h
    · cases h : it.urgency with
      | none => simp [inEnum]
      | some v => simpa [inEnum] using hu v h
    · cases h : it.marketing_relevance with
      | none => simp [inEnum]
      | some v => simpa [inEnum] using hm v h

/-! ## Filter stage candidate selection (src/ai/stages/filter.js,
src/storage/repositories/index.js)

getUnprocessedMessages (lines 340-374) selects messages with no
ai_processing row for the given stage (LEFT JOIN ... WHERE ap.id IS NULL),
optionally restricted by channel and timestamp range, ordered by timestamp
ascending, with an optional LIMIT.  JavaScript truthiness guards each
option: an absent or empty-string channelId/startDate/endDate adds no
clause, an absent or zero limit adds no LIMIT.  runFilterStage destructures
force from its options but never uses it; its candidates come solely from
getUnprocessedMessages. -/

/-- A row of the ai_processing table (the columns the join condition
reads). -/
structure APRow where
  entity_type : String
  entity_id : String
  stage : String
  deriving DecidableEq, Repr

/-- The modelled store: the messages table and the ai_processing table. -/
structure Store where
  messages : List MessageRow
  aiProcessing : List APRow
  deriving Repr

/-- The LEFT JOIN match of getUnprocessedMessages: is there an
ai_processing row for this message id and stage. -/
def hasAPRow (db : Store) (stage : String) (messageId : String) : Bool :=
  db.aiProcessing.any
    (fun ap => ap.entity_type = "message" ∧ ap.entity_id = messageId ∧
      ap.stage = stage)

/-- JavaScript truthiness of an optional string option. -/
def truthyStr (o : Option String) : Bool :=
  match o with
  | none => false
  | some s => !(s.length = 0)

/-- ORDER BY m.timestamp ascending, as an insertion sort on the stored
timestamp strings (SQLite TEXT comparison on ISO-8601 strings). -/
def insertByTimestamp (m : MessageRow) : List MessageRow → List MessageRow
  | [] => [m]
  | x :: xs =>
    if m.timestamp ≤ x.timestamp then m :: x :: xs
    else x :: insertByTimestamp m xs

def sortByTimestamp : List MessageRow → List MessageRow
  | [] => []
  | x :: xs => insertByTimestamp x (sortByTimestamp xs)

/-- The LIMIT clause guarded by JavaScript truthiness: a missing or zero
limit leaves the result unrestricted. -/
def applyLimit (limit : Option Nat) (l : List MessageRow) : List MessageRow :=
  match limit with
  | some k => if k ≠ 0 then l.take k else l
  | none => l

/-- getUnprocessedMessages from src/storage/repositories/index.js
(lines 340-374). -/
def getUnprocessedMessages (db : Store) (stage : String)
    (channelId startDate endDate : Option String) (limit : Option Nat) :
    List MessageRow :=
  let rows := db.messages.filter
    (fun m =>
      !(hasAPRow db stage m.id) &&
      (if truthyStr channelId then m.channel_id = channelId.getD "" else true) &&
      (if truthyStr startDate then startDate.getD "" ≤ m.timestamp else true) &&
      (if truthyStr endDate then m.timestamp < endDate.getD "" else true))
  applyLimit limit (sortByTimestamp rows)

/-- The options runFilterStage destructures (src/ai/stages/filter.js lines
50-57); dryRun only short-circuits after candidate selection. -/
structure FilterOptions where
  channelId : Option String
  startDate : Option String
  endDate : Option String
  limit : Option Nat
  force : Bool
  dryRun : Bool

/-- The candidate messages runFilterStage fetches and batches
(src/ai/stages/filter.js lines 63-69): getUnprocessedMessages for stage
"filter" with only channelId, startDate, endDate and limit passed on. -/
def runFilterStageCandidates (db : Store) (options : FilterOptions) :
    List MessageRow :=
  getUnprocessedMessages db "filter" options.channelId options.startDate
    options.endDate options.limit

theorem mem_applyLimit (limit : Option Nat) (l : List MessageRow)
    (m : MessageRow) (h : m ∈ applyLimit limit l) : m ∈ l := by
  cases limit with
  | none => exact h
  | some k =>
    simp only [applyLimit] at h
    by_cases hk : k ≠ 0
    · rw [if_pos hk] at h
      exact List.take_subset k l h
    · rw [if_neg hk] at h
      exact h

theorem mem_insertByTimestamp (m x : MessageRow) (l : List MessageRow)
    (h : x ∈ insertByTimestamp m l) : x = m ∨ x ∈ l := by
  induction l with
  | nil => simpa [insertByTimestamp] using h
  | cons a l ih =>
    simp only [insertByTimestamp] at h
    by_cases hc : m.timestamp ≤ a.timestamp
    · rw [if_pos hc] at h
      rcases List.mem_cons.mp h with h | h
      · exact Or.inl h
      · exact Or.inr h
    · rw [if_neg hc] at h
      rcases List.mem_cons.mp h with h | h
      · exact Or.inr (List.mem_cons.mpr (Or.inl h))
      · rcases ih h with h | h
        · exact Or.inl h
        · exact Or.inr (List.mem_cons.mpr (Or.inr h))

theorem mem_sortByTimestamp (x : MessageRow) (l : List MessageRow)
    (h : x ∈ sortByTimestamp l) : x ∈ l := by
  induction l with
  | nil => simp [sortByTimestamp] at h
  | cons a l ih =>
    simp only [sortByTimestamp] at h
    rcases mem_insertByTimestamp a x (sortByTimestamp l) h with h | h
    · exact h ▸ List.mem_cons_self a l
    · exact List.mem_cons.mpr (Or.inr (ih h))

/-- C10: the force flag has no effect on the filter stage's candidate set,
and every candidate has no ai_processing row for the filter stage, so
already-filtered messages are never sent to the model again. -/
theorem runFilterStage_force_no_effect (db : Store)
    (channelId startDate endDate : Option String) (limit : Option Nat)
    (dryRun : Bool) :
    runFilterStageCandidates db
        ⟨channelId, startDate, endDate, limit, true, dryRun⟩ =
      runFilterStageCandidates db
        ⟨channelId, startDate, endDate, limit, false, dryRun⟩ ∧
    ∀ m ∈ runFilterStageCandidates db
        ⟨channelId, startDate, endDate, limit, true, dryRun⟩,
      hasAPRow db "filter" m.id = false := by
  constructor
  · rfl
  · intro m hm
    unfold runFilterStageCandidates getUnprocessedMessages at hm
    simp only at hm
    have hm' := mem_applyLimit limit _ m hm
    have hmem := mem_sortByTimestamp m _ hm'
    have hfilt := List.of_mem_filter hmem
    simp only [Bool.and_eq_true, Bool.not_eq_true'] at hfilt
    exact hfilt.1.1.1

/-! ## Retry with exponential backoff (src/ai/client.js)

processWithRetry (lines 38-74) loops attempt = 1 .. maxRetries; a thrown
error with a retryable status or code is retried unless the attempt was the
last, with a sleep of Math.round(delay + jitter) milliseconds, where
delay = min(baseDelay * backoffMultiplier^(attempt-1), 30000) and
jitter = delay * 0.1 * Math.random().  Numbers are modelled as rationals
and Math.random() as an explicit sequence of rationals in [0, 1). -/

/-- JavaScript Math.round on rationals: floor of x + 1/2. -/
def jsRound (q : ℚ) : Int := ⌊q + 1 / 2⌋

/-- The error object thrown by a failed call: its HTTP status, its error
code, and an opaque payload identifying the concrete error instance. -/
structure CallError where
  status : Option Nat
  code : Option String
  payload : Nat
  deriving DecidableEq, Repr

/-- The outcome of one invocation of the wrapped function fn. -/
inductive CallOutcome (α : Type) where
  | ok (v : α)
  | err (e : CallError)
  deriving DecidableEq, Repr

/-- The retryable test of processWithRetry (src/ai/client.js lines
51-56). -/
def isRetryable (e : CallError) : Bool :=
  e.status == some 429 || e.status == some 500 || e.status == some 503 ||
    e.code == some "ECONNRESET" || e.code == some "ETIMEDOUT"

/-- The capped exponential delay of line 62:
min(baseDelay * backoffMultiplier^(attempt - 1), maxDelay). -/
def backoffDelay (baseDelay backoffMultiplier maxDelay : ℚ)
    (attempt : Nat) : ℚ :=
  min (baseDelay * backoffMultiplier ^ (attempt - 1)) maxDelay

/-- The slept inter-attempt delay of lines 62-64:
Math.round(delay + delay * 0.1 * r) with r the Math.random() draw. -/
def totalDelay (baseDelay backoffMultiplier maxDelay : ℚ) (attempt : Nat)
    (r : ℚ) : Int :=
  let delay := backoffDelay baseDelay backoffMultiplier maxDelay attempt
  let jitter := delay * (1 / 10) * r
  jsRound (delay + jitter)

/-- The observable trace of one processWithRetry run: the returned or
thrown outcome (none when maxRetries is 0 and the loop body never runs,
matching the implicit undefined return), the number of calls issued, and
the list of slept delays in order. -/
structure RetryTrace (α : Type) where
  result : Option (CallOutcome α)
  calls : Nat
  delays : List Int
  deriving Repr

/-- The attempt loop of processWithRetry (lines 47-73).  fuel counts the
remaining iterations, maxRetries + 1 - attempt; call k is the outcome of
the k-th invocation of fn and rand k the Math.random() draw after it. -/
def processWithRetryGo (maxRetries : Nat) (baseDelay backoffMultiplier : ℚ)
    (call : Nat → CallOutcome α) (rand : Nat → ℚ) :
    Nat → Nat → RetryTrace α
  | 0, _ => ⟨none, 0, []⟩
  | fuel + 1, attempt =>
    match call attempt with
    | .ok v => ⟨some (.ok v), 1, []⟩
    | .err e =>
      if isRetryable e = false ∨ attempt = maxRetries then
        ⟨some (.err e), 1, []⟩
      else
        let d := totalDelay baseDelay backoffMultiplier 30000 attempt
          (rand attempt)
        let rest := processWithRetryGo maxRetries baseDelay backoffMultiplier
          call rand fuel (attempt + 1)
        ⟨rest.result, rest.calls + 1, d :: rest.delays⟩

/-- processWithRetry from src/ai/client.js (lines 38-74), with
maxDelay = 30000 as defaulted on line 44. -/
def processWithRetry (maxRetries : Nat) (baseDelay backoffMultiplier : ℚ)
    (call : Nat → CallOutcome α) (rand : Nat → ℚ) : RetryTrace α :=
  processWithRetryGo maxRetries baseDelay backoffMultiplier call rand
    maxRetries 1

theorem processWithRetryGo_succ {α : Type} (maxRetries : Nat) (B M : ℚ)
    (call : Nat → CallOutcome α) (rand : Nat → ℚ) (fuel attempt : Nat) :
    processWithRetryGo maxRetries B M call rand (fuel + 1) attempt =
      match call attempt with
      | .ok v => ⟨some (.ok v), 1, []⟩
      | .err e =>
        if isRetryable e = false ∨ attempt = maxRetries then
          ⟨some (.err e), 1, []⟩
        else
          ⟨(processWithRetryGo maxRetries B M call rand fuel
              (attempt + 1)).result,
            (processWithRetryGo maxRetries B M call rand fuel
              (attempt + 1)).calls + 1,
            totalDelay B M 30000 attempt (rand attempt) ::
              (processWithRetryGo maxRetries B M call rand fuel
                (attempt + 1)).delays⟩ := rfl

theorem processWithRetryGo_all429 {α : Type} (maxRetries : Nat)
    (B M : ℚ) (errs : Nat → CallError) (rand : Nat → ℚ)
    (hstatus : ∀ k, (errs k).status = some 429) :
    ∀ (fuel attempt : Nat), attempt + fuel = maxRetries + 1 → 1 ≤ fuel →
      processWithRetryGo maxRetries B M
          (fun k => (CallOutcome.err (errs k) : CallOutcome α)) rand
          fuel attempt =
        ⟨some (.err (errs maxRetries)), fuel,
          (List.range (fuel - 1)).map
            (fun j => totalDelay B M 30000 (attempt + j) (rand (attempt + j)))⟩ := by
  intro fuel
  induction fuel with
  | zero => intro attempt _ hf; omega
  | succ fuel ih =>
    intro attempt hsum _
    have hretry : isRetryable (errs attempt) = true := by
      simp [isRetryable, hstatus attempt]
    cases fuel with
    | zero =>
      have hlast : attempt = maxRetries := by omega
      subst hlast
      simp [processWithRetryGo]
    | succ fuel' =>
      have hnotlast : attempt ≠ maxRetries := by omega
      have hrec := ih (attempt + 1) (by omega) (by omega)
      rw [processWithRetryGo_succ]
      simp only [hretry]
      rw [if_neg (by simp [hnotlast])]
      rw [hrec]
      simp only [RetryTrace.mk.injEq, Nat.succ_sub_one, Nat.add_sub_cancel]
      refine ⟨trivial, trivial, ?_⟩
      rw [List.range_succ_eq_map, List.map_cons, List.map_map]
      refine congrArg₂ List.cons (by simp) ?_
      refine List.map_congr_left ?_
      intro j _
      have hj : attempt + 1 + j = attempt + Nat.succ j := by omega
      simp [Function.comp, hj]

theorem backoffDelay_nonneg (B M : ℚ) (attempt : Nat) (hB : 0 ≤ B)
    (hM : 0 ≤ M) : 0 ≤ backoffDelay B M 30000 attempt := by
  unfold backoffDelay
  exact le_min (mul_nonneg hB (pow_nonneg hM _)) (by norm_num)

theorem totalDelay_bounds (B M : ℚ) (attempt : Nat) (r : ℚ)
    (hB : 0 ≤ B) (hM : 0 ≤ M) (hr0 : 0 ≤ r) (hr1 : r < 1) :
    backoffDelay B M 30000 attempt - 1 / 2 <
        (totalDelay B M 30000 attempt r : ℚ) ∧
      (totalDelay B M 30000 attempt r : ℚ) ≤
        11 / 10 * backoffDelay B M 30000 attempt + 1 / 2 := by
  have hd0 : 0 ≤ backoffDelay B M 30000 attempt :=
    backoffDelay_nonneg B M attempt hB hM
  set d := backoffDelay B M 30000 attempt with hd
  have hj0 : 0 ≤ d * (1 / 10) * r := by positivity
  have hjU : d * (1 / 10) * r ≤ d * (1 / 10) :=
    mul_le_of_le_one_right (by positivity) (le_of_lt hr1)
  simp only [totalDelay, jsRound, ← hd]
  constructor
  · have hfl := Int.sub_one_lt_floor (d + d * (1 / 10) * r + 1 / 2)
    linarith
  · have hfl := Int.floor_le (d + d * (1 / 10) * r + 1 / 2)
    linarith

/-- C3 amended: when every call fails with HTTP status 429, processWithRetry
issues exactly maxRetries calls, rethrows the final attempt's error, and the
i-th inter-attempt delay (0-based index i, attempt i + 1) is the
whole-millisecond rounding of a value in
[base, 1.1 * base) where base = min(B * M^i, 30000), hence it lies strictly
above base - 1/2 and at most 1.1 * base + 1/2.  The delay can exceed
1.1 * base itself by up to half a millisecond because Math.round is applied
after the jitter is added. -/
theorem processWithRetry_all429_spec {α : Type} (maxRetries : Nat) (B M : ℚ)
    (errs : Nat → CallError) (rand : Nat → ℚ) (hmr : 1 ≤ maxRetries)
    (hstatus : ∀ k, (errs k).status = some 429)
    (hB : 0 ≤ B) (hM : 0 ≤ M)
    (hr : ∀ k, 0 ≤ rand k ∧ rand k < 1) :
    (processWithRetry maxRetries B M
        (fun k => (CallOutcome.err (errs k) : CallOutcome α)) rand).calls =
      maxRetries ∧
    (processWithRetry maxRetries B M
        (fun k => (CallOutcome.err (errs k) : CallOutcome α)) rand).result =
      some (.err (errs maxRetries)) ∧
    (processWithRetry maxRetries B M
        (fun k => (CallOutcome.err (errs k) : CallOutcome α)) rand).delays.length =
      maxRetries - 1 ∧
    ∀ (i : Nat) (h : i < (processWithRetry maxRetries B M
        (fun k => (CallOutcome.err (errs k) : CallOutcome α)) rand).delays.length),
      min (B * M ^ i) 30000 - 1 / 2 <
          (((processWithRetry maxRetries B M
            (fun k => (CallOutcome.err (errs k) : CallOutcome α)) rand).delays.get
              ⟨i, h⟩ : Int) : ℚ) ∧
        (((processWithRetry maxRetries B M
            (fun k => (CallOutcome.err (errs k) : CallOutcome α)) rand).delays.get
              ⟨i, h⟩ : Int) : ℚ) ≤
          11 / 10 * min (B * M ^ i) 30000 + 1 / 2 := by
  have hrun := processWithRetryGo_all429 (α := α) maxRetries B M errs rand
    hstatus maxRetries 1 (by omega) hmr
  unfold processWithRetry
  rw [hrun]
  refine ⟨rfl, rfl, by simp, ?_⟩
  intro i h
  have hlen : i < maxRetries - 1 := by simpa using h
  have hget : (((List.range (maxRetries - 1)).map
      (fun j => totalDelay B M 30000 (1 + j) (rand (1 + j)))).get ⟨i, h⟩) =
      totalDelay B M 30000 (1 + i) (rand (1 + i)) := by
    simp [List.get_eq_getElem]
  rw [hget]
  have hbase : backoffDelay B M 30000 (1 + i) = min (B * M ^ i) 30000 := by
    unfold backoffDelay
    norm_num
  have hbounds := totalDelay_bounds B M (1 + i) (rand (1 + i)) hB hM
    (hr (1 + i)).1 (hr (1 + i)).2
  rw [hbase] at hbounds
  exact hbounds

/-- Witness for processWithRetry_all429_spec: three attempts, base delay
1000 ms, multiplier 2, all calls failing with 429 and Math.random always
drawing 0. -/
theorem processWithRetry_all429_spec_witness :
    (processWithRetry 3 1000 2
        (fun k => (CallOutcome.err ⟨some 429, none, k⟩ : CallOutcome Unit))
        (fun _ => 0)).calls = 3 ∧
    (processWithRetry 3 1000 2
        (fun k => (CallOutcome.err ⟨some 429, none, k⟩ : CallOutcome Unit))
        (fun _ => 0)).result =
      some (.err ⟨some 429, none, 3⟩) ∧
    (processWithRetry 3 1000 2
        (fun k => (CallOutcome.err ⟨some 429, none, k⟩ : CallOutcome Unit))
        (fun _ => 0)).delays.length = 3 - 1 ∧
    ∀ (i : Nat) (h : i < (processWithRetry 3 1000 2
        (fun k => (CallOutcome.err ⟨some 429, none, k⟩ : CallOutcome Unit))
        (fun _ => 0)).delays.length),
      min ((1000 : ℚ) * 2 ^ i) 30000 - 1 / 2 <
          (((processWithRetry 3 1000 2
            (fun k => (CallOutcome.err ⟨some 429, none, k⟩ : CallOutcome Unit))
            (fun _ => 0)).delays.get ⟨i, h⟩ : Int) : ℚ) ∧
        (((processWithRetry 3 1000 2
            (fun k => (CallOutcome.err ⟨some 429, none, k⟩ : CallOutcome Unit))
            (fun _ => 0)).delays.get ⟨i, h⟩ : Int) : ℚ) ≤
          11 / 10 * min ((1000 : ℚ) * 2 ^ i) 30000 + 1 / 2 :=
  processWithRetry_all429_spec 3 1000 2 (fun k => ⟨some 429, none, k⟩)
    (fun _ => 0) (by norm_num) (fun k => rfl) (by norm_num) (by norm_num)
    (fun k => by norm_num)

/-- C3 counterexample: with baseDelay = 6 ms, multiplier 2, maxRetries = 2
and a random draw of 0.9, the single inter-attempt delay is
Math.round(6 + 6 * 0.1 * 0.9) = Math.round(6.54) = 7 ms, which lies outside
the claimed interval [B * M^0, 1.1 * B * M^0] = [6, 6.6]. -/
theorem processWithRetry_claim_counterexample :
    (processWithRetry 2 6 2
        (fun k => (CallOutcome.err ⟨some 429, none, k⟩ : CallOutcome Unit))
        (fun _ => 9 / 10)).delays = [7] ∧
    ¬ ((7 : ℚ) ≤ 11 / 10 * min ((6 : ℚ) * 2 ^ (0 : ℕ)) 30000) := by
  constructor
  · have hrun := processWithRetryGo_all429 (α := Unit) 2 6 2
      (fun k => ⟨some 429, none, k⟩) (fun _ => 9 / 10)
      (fun k => rfl) 2 1 (by omega) (by omega)
    unfold processWithRetry
    rw [hrun]
    have hbase : backoffDelay 6 2 30000 1 = 6 := by
      unfold backoffDelay
      norm_num
    have hd : totalDelay 6 2 30000 1 (9 / 10) = 7 := by
      simp only [totalDelay, jsRound, hbase]
      rw [show ((6 : ℚ) + 6 * (1 / 10) * (9 / 10) + 1 / 2) = 176 / 25 by norm_num]
      rw [Int.floor_eq_iff]
      constructor <;> norm_num
    norm_num [List.range_succ, hd]
  · norm_num

/-! ## Message pagination (src/scraper/messages.js)

fetchMessages (lines 108-205) pages with fetch options built on lines
126-132: before = lastId when lastId is set, otherwise after when the
after option is set.  lastId starts as the before option (null in the
scrape command) and after every batch is set to the id of the LAST element
of the batch sorted by descending creation time, i.e. the OLDEST id of the
batch (line 193).  The channel is modelled as the ascending list of its
message ids (Discord snowflake ids order by creation time); the external
fetch returns, for before, the newest FETCH_LIMIT ids below the bound, for
after, the FETCH_LIMIT ids immediately above the bound, and otherwise the
newest FETCH_LIMIT ids.  The scrape command passes no limit option, so the
limit branches (lines 124, 154-157) are never taken and are omitted. -/

def FETCH_LIMIT : Nat := 100

/-- channel.messages.fetch with a before bound: the newest lim ids strictly
below b, as a list. -/
def fetchBefore (ch : List Nat) (b lim : Nat) : List Nat :=
  ((ch.filter (fun i => i < b)).reverse).take lim

/-- channel.messages.fetch with an after bound: the lim ids immediately
above a. -/
def fetchAfter (ch : List Nat) (a lim : Nat) : List Nat :=
  (ch.filter (fun i => a < i)).take lim

/-- channel.messages.fetch with no bound: the newest lim ids. -/
def fetchNewest (ch : List Nat) (lim : Nat) : List Nat :=
  ch.reverse.take lim

/-- The fetchOptions construction of fetchMessages lines 126-132: before
wins whenever lastId is set, else after is used when present. -/
def fetchOnce (ch : List Nat) (lastId after : Option Nat) : List Nat :=
  match lastId with
  | some b => fetchBefore ch b FETCH_LIMIT
  | none =>
    match after with
    | some a => fetchAfter ch a FETCH_LIMIT
    | none => fetchNewest ch FETCH_LIMIT

/-- The sort of line 143: descending creation time, i.e. descending id. -/
def insertDesc (x : Nat) : List Nat → List Nat
  | [] => [x]
  | y :: ys => if y < x then x :: y :: ys else y :: insertDesc x ys

def sortDesc : List Nat → List Nat
  | [] => []
  | x :: xs => insertDesc x (sortDesc xs)

/-- The while loop of fetchMessages lines 122-204 with fuel bounding the
number of page fetches: fetch a page, stop on an empty page, yield the page
sorted descending, set lastId to the page's oldest id, and continue only
when the page was full. -/
def fetchMessagesGo (ch : List Nat) (after : Option Nat) :
    Nat → Option Nat → List Nat
  | 0, _ => []
  | fuel + 1, lastId =>
    let messages := fetchOnce ch lastId after
    if messages.length = 0 then []
    else
      let messageArray := sortDesc messages
      if messages.length < FETCH_LIMIT then messageArray
      else
        messageArray ++
          fetchMessagesGo ch after fuel (some (messageArray.getLast?.getD 0))

/-- The ids yielded by one fetchMessages run as invoked by the scrape
command: before starts null, so lastId starts as none. -/
def fetchMessagesIds (ch : List Nat) (after : Option Nat) (fuel : Nat) :
    List Nat :=
  fetchMessagesGo ch after fuel none

/-- C4 evidence: on a channel holding ids 1..150 with an incremental resume
cursor after = 30 (120 new messages), the run yields 130,129,...,1: the
second page request uses before = 31 and walks backwards over the already
scraped ids, yielding 30 (which is not after the cursor), and the 20
newest messages 131..150 are never yielded.  The claimed oldest-to-newest
incremental paging with all yields after the cursor does not hold. -/
theorem fetchMessages_incremental_bug :
    fetchMessagesIds (List.range' 1 150) (some 30) 5 =
      (List.range' 1 130).reverse ∧
    30 ∈ fetchMessagesIds (List.range' 1 150) (some 30) 5 ∧
    150 ∉ fetchMessagesIds (List.range' 1 150) (some 30) 5 := by
  refine ⟨by decide, by decide, by decide⟩

/-! ## SyncState lifecycle (scrape command, storage repositories)

createSyncState inserts a row with status in_progress; completeSyncState
sets status completed with messages_processed; failSyncState sets status
failed with error_message.  The scrape command creates the row, and on
normal completion calls completeSyncState with the total message count;
its outer catch block (the only handler for uncaught errors) calls
spinner.fail, logs and exits the process - failSyncState is imported but
never invoked, so the row keeps whatever state it had. -/

inductive SyncStatus where
  | in_progress
  | completed
  | failed
  deriving DecidableEq, Repr

/-- The sync_state columns the lifecycle touches. -/
structure SyncRow where
  status : SyncStatus
  messages_processed : Option Nat
  error_message : Option String
  deriving DecidableEq, Repr

/-- createSyncState (repositories lines 235-242): a fresh in_progress
row. -/
def createSyncState : SyncRow := ⟨.in_progress, none, none⟩

/-- completeSyncState (repositories lines 244-253). -/
def completeSyncState (r : SyncRow) (messagesProcessed : Nat) : SyncRow :=
  { r with status := .completed, messages_processed := some messagesProcessed }

/-- failSyncState (repositories lines 255-264). -/
def failSyncState (r : SyncRow) (errorMessage : String) : SyncRow :=
  { r with status := .failed, error_message := some errorMessage }

/-- The sync row at the end of one scrapeCommand invocation that got as far
as creating the row: uncaughtError carries the message of an error thrown
after createSyncState and caught by the outer catch block (which logs and
exits without touching the row); totalMessages is the accumulated count on
the success path, which ends in completeSyncState. -/
def scrapeSyncRowAfterRun (uncaughtError : Option String)
    (totalMessages : Nat) : SyncRow :=
  match uncaughtError with
  | none => completeSyncState createSyncState totalMessages
  | some _ => createSyncState

/-- C5 evidence: a run that fails with an uncaught error after the
SyncState row was opened leaves the row in_progress - it is neither marked
failed with the error message (failSyncState is never called) nor
completed; the claim that no run leaves the row in_progress is violated.
A normally finishing run does mark the row completed with the total. -/
theorem scrapeSyncRow_uncaught_error_stays_in_progress :
    (scrapeSyncRowAfterRun (some "Missing Access") 0).status =
      .in_progress ∧
    (scrapeSyncRowAfterRun (some "Missing Access") 0).status ≠ .failed ∧
    (scrapeSyncRowAfterRun (some "Missing Access") 0).error_message = none ∧
    scrapeSyncRowAfterRun none 42 = ⟨.completed, some 42, none⟩ := by
  refine ⟨rfl, by decide, rfl, rfl⟩

/-! ## Anonymizer (src/utils/privacy.js)

createAnonymizer keeps a Map from username to alias and a counter; a novel
username increments the counter and is assigned the alias
User_<letter><suffix> with letter = String.fromCharCode(65 + (counter-1) %
26) and suffix the decimal numeral of floor((counter-1) / 26) when counter
exceeds 26 and empty otherwise.  A falsy (empty) username yields
User_Unknown without touching the state.  anonymizeMessages runs one fresh
anonymizer over the messages in order, anonymizing author.username and then
a truthy author.global_name; author_id is replaced by anon_<last 4 chars>.
The filter stage calls it without options, so the anonymizeContent branch
is off and content is untouched; message fields other than author and
author_id are carried over unchanged by the object spread and are omitted
from the model. -/

/-- Little-endian decimal digits of n, with structural fuel (fuel at least
n makes the result exact). -/
def toDigitsRev (fuel n : Nat) : List Nat :=
  match fuel, n with
  | _, 0 => []
  | 0, _ + 1 => []
  | f + 1, m + 1 => ((m + 1) % 10) :: toDigitsRev f ((m + 1) / 10)

/-- The decimal numeral of n as interpolated by a JavaScript template
literal (most significant digit first); empty for n = 0, matching the
empty suffix never being produced for a nonzero argument in the source. -/
def natSuffix (n : Nat) : String :=
  ⟨(toDigitsRev n n).reverse.map (fun d => Char.ofNat (48 + d))⟩

/-- The alias for the n-th novel username (counter value n, n at least 1),
from src/utils/privacy.js lines 23-26. -/
def aliasFor (n : Nat) : String :=
  "User_" ++ (Char.ofNat (65 + (n - 1) % 26)).toString ++
    (if 26 < n then natSuffix ((n - 1) / 26) else "")

/-- The closure state of createAnonymizer: the Map (as an association list
in insertion order) and the counter. -/
structure AnonState where
  mapping : List (String × String)
  counter : Nat
  deriving Repr

/-- anonymize from src/utils/privacy.js lines 19-30. -/
def anonymize (s : AnonState) (username : String) : AnonState × String :=
  if username = "" then (s, "User_Unknown")
  else
    match s.mapping.lookup username with
    | some a => (s, a)
    | none =>
      (⟨s.mapping ++ [(username, aliasFor (s.counter + 1))], s.counter + 1⟩,
        aliasFor (s.counter + 1))

/-- The author_id rewrite of anonymizeMessages lines 72-74: a truthy
author_id becomes anon_ followed by its last four characters
(String.prototype.slice(-4)). -/
def anonAuthorId : Option String → Option String
  | none => none
  | some aid =>
    if aid = "" then some aid
    else some ("anon_" ++ ⟨aid.data.drop (aid.data.length - 4)⟩)

structure Author where
  username : String
  global_name : Option String
  deriving DecidableEq, Repr

structure AnonMessage where
  author : Option Author
  author_id : Option String
  deriving DecidableEq, Repr

/-- The per-message body of anonymizeMessages lines 57-86 (with the
anonymizeContent option off, as in the filter stage call): anonymize
author.username, then a truthy author.global_name through the same
anonymizer, and rewrite author_id. -/
def anonMsg (s : AnonState) (msg : AnonMessage) : AnonState × AnonMessage :=
  match msg.author with
  | none => (s, { msg with author_id := anonAuthorId msg.author_id })
  | some a =>
    let p1 := anonymize s a.username
    match a.global_name with
    | some g =>
      if g = "" then
        (p1.1, ⟨some ⟨p1.2, none⟩, anonAuthorId msg.author_id⟩)
      else
        let p2 := anonymize p1.1 g
        (p2.1, ⟨some ⟨p1.2, some p2.2⟩, anonAuthorId msg.author_id⟩)
    | none =>
      (p1.1, ⟨some ⟨p1.2, none⟩, anonAuthorId msg.author_id⟩)

def anonymizeMessagesGo (s : AnonState) :
    List AnonMessage → List AnonMessage × AnonState
  | [] => ([], s)
  | m :: ms =>
    let p := anonMsg s m
    let rest := anonymizeMessagesGo p.1 ms
    (p.2 :: rest.1, rest.2)

/-- anonymizeMessages from src/utils/privacy.js lines 54-92: a fresh
anonymizer folded over the messages; returns the anonymized messages and
the final username-to-alias mapping (getMapping). -/
def anonymizeMessages (msgs : List AnonMessage) :
    List AnonMessage × List (String × String) :=
  ((anonymizeMessagesGo ⟨[], 0⟩ msgs).1,
    (anonymizeMessagesGo ⟨[], 0⟩ msgs).2.mapping)

/-- The names one message feeds to the anonymizer, in order: the author's
username, then a truthy global_name. -/
def msgNames (msg : AnonMessage) : List String :=
  match msg.author with
  | none => []
  | some a =>
    a.username ::
      (match a.global_name with
       | some g => if g = "" then [] else [g]
       | none => [])

/-- All names fed to the anonymizer by one anonymizeMessages call, in
call order. -/
def allNames (msgs : List AnonMessage) : List String :=
  (msgs.map msgNames).flatten

/-- The anonymizer state after feeding a list of names in order. -/
def runNames (s : AnonState) (names : List String) : AnonState :=
  names.foldl (fun st n => (anonymize st n).1) s

/-- The distinct names of a list in order of first appearance. -/
def firstAppearances (names : List String) : List String :=
  names.foldl (fun acc n => if n ∈ acc then acc else acc ++ [n]) []

/-- The alias a mapping assigns to a name (specification-side reading of
the returned mapping as a function). -/
def aliasIn (mapping : List (String × String)) (n : String) : String :=
  (mapping.lookup n).getD "User_Unknown"

/-- Renaming one message by pure lookup in a fixed mapping; the theorem
below shows the stateful run equals this pure rename by the final
mapping, which is the consistency part of the claim. -/
def applyAliases (mapping : List (String × String)) (msg : AnonMessage) :
    AnonMessage :=
  match msg.author with
  | none => { msg with author_id := anonAuthorId msg.author_id }
  | some a =>
    { author := some ⟨aliasIn mapping a.username,
        match a.global_name with
        | some g => if g = "" then none else some (aliasIn mapping g)
        | none => none⟩,
      author_id := anonAuthorId msg.author_id }

/-- The reachable-state invariant of the anonymizer: the stored aliases
are exactly aliasFor 1 .. aliasFor counter in insertion order, and no
username occurs twice. -/
def GoodState (s : AnonState) : Prop :=
  s.mapping.map Prod.snd =
      (List.range s.counter).map (fun k => aliasFor (k + 1)) ∧
    (s.mapping.map Prod.fst).Nodup

theorem lookup_eq_none_iff (l : List (String × String)) (k : String) :
    l.lookup k = none ↔ k ∉ l.map Prod.fst := by
  induction l with
  | nil => simp [List.lookup]
  | cons p l ih =>
    simp only [List.lookup, List.map_cons, List.mem_cons]
    by_cases hk : k = p.1
    · simp [hk]
    · have : (k == p.1) = false := beq_false_of_ne hk
      simp [this, ih, hk]

theorem lookup_append_left (l t : List (String × String)) (k a : String)
    (h : l.lookup k = some a) : (l ++ t).lookup k = some a := by
  induction l with
  | nil => simp [List.lookup] at h
  | cons p l ih =>
    simp only [List.lookup, List.cons_append] at h ⊢
    cases hk : (k == p.1) with
    | true => rw [hk] at h; exact h
    | false => rw [hk] at h; exact ih h

theorem lookup_append_right (l t : List (String × String)) (k : String)
    (h : l.lookup k = none) : (l ++ t).lookup k = t.lookup k := by
  induction l with
  | nil => simp
  | cons p l ih =>
    simp only [List.lookup, List.cons_append] at h ⊢
    cases hk : (k == p.1) with
    | true => rw [hk] at h; exact absurd h (by simp)
    | false => rw [hk] at h; exact ih h

theorem toDigitsRev_lt10 :
    ∀ (fuel n : Nat), ∀ d ∈ toDigitsRev fuel n, d < 10 := by
  intro fuel
  induction fuel with
  | zero =>
    intro n d hd
    cases n <;> simp [toDigitsRev] at hd
  | succ f ih =>
    intro n d hd
    cases n with
    | zero => simp [toDigitsRev] at hd
    | succ m =>
      simp only [toDigitsRev, List.mem_cons] at hd
      rcases hd with hd | hd
      · exact hd ▸ Nat.mod_lt _ (by norm_num)
      · exact ih _ d hd

theorem ofDigits_toDigitsRev :
    ∀ (fuel n : Nat), n ≤ fuel → Nat.ofDigits 10 (toDigitsRev fuel n) = n := by
  intro fuel
  induction fuel with
  | zero =>
    intro n hn
    have : n = 0 := by omega
    subst this
    simp [toDigitsRev, Nat.ofDigits_nil]
  | succ f ih =>
    intro n hn
    cases n with
    | zero => simp [toDigitsRev, Nat.ofDigits_nil]
    | succ m =>
      have hdiv : (m + 1) / 10 ≤ f := by
        have := Nat.div_lt_self (Nat.succ_pos m) (by norm_num : 1 < 10)
        omega
      simp only [toDigitsRev, Nat.ofDigits_cons, ih _ hdiv]
      omega

theorem char_toNat_ofNat (n : Nat) (h : n < 55296) :
    (Char.ofNat n).toNat = n := by
  have hv : n.isValidChar := Or.inl h
  rw [Char.ofNat, dif_pos hv]
  rfl

theorem charOfNat_inj (a b : Nat) (ha : a < 55296) (hb : b < 55296)
    (h : Char.ofNat a = Char.ofNat b) : a = b := by
  have := congrArg Char.toNat h
  rwa [char_toNat_ofNat a ha, char_toNat_ofNat b hb] at this

theorem map_digitChar_inj :
    ∀ (l1 l2 : List Nat), (∀ d ∈ l1, d < 10) → (∀ d ∈ l2, d < 10) →
      l1.map (fun d => Char.ofNat (48 + d)) =
        l2.map (fun d => Char.ofNat (48 + d)) → l1 = l2 := by
  intro l1
  induction l1 with
  | nil => intro l2 _ _ h; cases l2 <;> simp_all
  | cons d l1 ih =>
    intro l2 h1 h2 h
    cases l2 with
    | nil => simp at h
    | cons e l2 =>
      simp only [List.map_cons, List.cons.injEq] at h
      have hd : d < 10 := h1 d (List.mem_cons_self d l1)
      have he : e < 10 := h2 e (List.mem_cons_self e l2)
      have hde : 48 + d = 48 + e :=
        charOfNat_inj _ _ (by omega) (by omega) h.1
      have htl := ih l2 (fun x hx => h1 x (List.mem_cons_of_mem d hx))
        (fun x hx => h2 x (List.mem_cons_of_mem e hx)) h.2
      have hde' : d = e := by omega
      rw [hde', htl]

theorem natSuffix_inj (a b : Nat) (h : natSuffix a = natSuffix b) : a = b := by
  have hdata := congrArg String.data h
  simp only [natSuffix] at hdata
  have hrev := map_digitChar_inj (toDigitsRev a a).reverse (toDigitsRev b b).reverse
    (fun d hd => toDigitsRev_lt10 a a d (List.mem_reverse.mp hd))
    (fun d hd => toDigitsRev_lt10 b b d (List.mem_reverse.mp hd)) hdata
  have hdig : toDigitsRev a a = toDigitsRev b b :=
    List.reverse_injective hrev
  have ha := ofDigits_toDigitsRev a a (le_refl a)
  have hb := ofDigits_toDigitsRev b b (le_refl b)
  rw [← ha, ← hb, hdig]

theorem natSuffix_ne_empty (n : Nat) (h : 1 ≤ n) : natSuffix n ≠ "" := by
  cases n with
  | zero => omega
  | succ m =>
    intro hc
    have hdata := congrArg String.data hc
    simp [natSuffix, toDigitsRev] at hdata

theorem char_toString_data (c : Char) : (Char.toString c).data = [c] := rfl

theorem aliasFor_inj (m n : Nat) (hm : 1 ≤ m) (hn : 1 ≤ n)
    (h : aliasFor m = aliasFor n) : m = n := by
  have hdata := congrArg String.data h
  simp only [aliasFor, String.data_append, char_toString_data,
    List.append_assoc] at hdata
  have hparts := List.append_cancel_left hdata
  simp only [List.cons_append, List.nil_append, List.cons.injEq] at hparts
  obtain ⟨hchar, hsuffix⟩ := hparts
  have hmod : (m - 1) % 26 = (n - 1) % 26 := by
    have hml : (m - 1) % 26 < 26 := Nat.mod_lt _ (by norm_num)
    have hnl : (n - 1) % 26 < 26 := Nat.mod_lt _ (by norm_num)
    have := charOfNat_inj (65 + (m - 1) % 26) (65 + (n - 1) % 26)
      (by omega) (by omega) hchar
    omega
  by_cases h26m : 26 < m <;> by_cases h26n : 26 < n
  · rw [if_pos h26m, if_pos h26n] at hsuffix
    have hdiv : (m - 1) / 26 = (n - 1) / 26 :=
      natSuffix_inj _ _ (String.ext hsuffix)
    have hm1 := Nat.div_add_mod (m - 1) 26
    have hn1 := Nat.div_add_mod (n - 1) 26
    omega
  · rw [if_pos h26m, if_neg h26n] at hsuffix
    have hpos : 1 ≤ (m - 1) / 26 := by
      rw [Nat.le_div_iff_mul_le (by norm_num)]
      omega
    exact absurd (String.ext hsuffix) (natSuffix_ne_empty _ hpos)
  · rw [if_neg h26m, if_pos h26n] at hsuffix
    have hpos : 1 ≤ (n - 1) / 26 := by
      rw [Nat.le_div_iff_mul_le (by norm_num)]
      omega
    exact absurd (String.ext hsuffix.symm) (natSuffix_ne_empty _ hpos)
  · have hmlt : m - 1 < 26 := by omega
    have hnlt : n - 1 < 26 := by omega
    rw [Nat.mod_eq_of_lt hmlt, Nat.mod_eq_of_lt hnlt] at hmod
    omega

theorem anonymize_mapping_cases (s : AnonState) (n : String) :
    ((anonymize s n).1 = s) ∨
      ((anonymize s n).1.mapping =
          s.mapping ++ [(n, aliasFor (s.counter + 1))] ∧
        (anonymize s n).1.counter = s.counter + 1 ∧
        s.mapping.lookup n = none ∧ n ≠ "") := by
  unfold anonymize
  by_cases hn : n = ""
  · rw [if_pos hn]
    exact Or.inl rfl
  · rw [if_neg hn]
    cases hl : s.mapping.lookup n with
    | some a => exact Or.inl rfl
    | none => exact Or.inr ⟨rfl, rfl, hl ▸ rfl, hn⟩

theorem anonymize_extend (s : AnonState) (n : String) :
    ∃ t, (anonymize s n).1.mapping = s.mapping ++ t := by
  rcases anonymize_mapping_cases s n with h | h
  · exact ⟨[], by simp [h]⟩
  · exact ⟨_, h.1⟩

theorem anonymize_good (s : AnonState) (n : String) (hs : GoodState s) :
    GoodState (anonymize s n).1 := by
  rcases anonymize_mapping_cases s n with h | h
  · rw [h]
    exact hs
  · obtain ⟨hmap, hctr, hlook, _⟩ := h
    have hnotin : n ∉ s.mapping.map Prod.fst :=
      (lookup_eq_none_iff _ _).mp hlook
    constructor
    · rw [hmap, hctr, List.map_append, hs.1, List.range_succ, List.map_append]
      rfl
    · rw [hmap, List.map_append]
      rw [List.nodup_append]
      refine ⟨hs.2, by simp, ?_⟩
      intro x hx
      simp only [List.map_cons, List.map_nil, List.mem_singleton]
      intro hc
      exact hnotin (hc ▸ hx)

theorem anonymize_result (s : AnonState) (n : String) (hn : n ≠ "") :
    (anonymize s n).1.mapping.lookup n = some (anonymize s n).2 := by
  unfold anonymize
  rw [if_neg hn]
  cases hl : s.mapping.lookup n with
  | some a => simpa using hl
  | none =>
    simp only
    rw [lookup_append_right _ _ _ hl]
    simp [List.lookup]

theorem runNames_cons (s : AnonState) (n : String) (ns : List String) :
    runNames s (n :: ns) = runNames (anonymize s n).1 ns := rfl

theorem runNames_append (s : AnonState) (l1 l2 : List String) :
    runNames s (l1 ++ l2) = runNames (runNames s l1) l2 := by
  unfold runNames
  rw [List.foldl_append]

theorem runNames_extend (ns : List String) :
    ∀ s, ∃ t, (runNames s ns).mapping = s.mapping ++ t := by
  induction ns with
  | nil =>
    intro s
    exact ⟨[], by simp [runNames]⟩
  | cons n ns ih =>
    intro s
    obtain ⟨t1, h1⟩ := anonymize_extend s n
    obtain ⟨t2, h2⟩ := ih (anonymize s n).1
    exact ⟨t1 ++ t2, by rw [runNames_cons, h2, h1, List.append_assoc]⟩

theorem runNames_good (ns : List String) :
    ∀ s, GoodState s → GoodState (runNames s ns) := by
  induction ns with
  | nil =>
    intro s hs
    simpa [runNames] using hs
  | cons n ns ih =>
    intro s hs
    rw [runNames_cons]
    exact ih _ (anonymize_good s n hs)

theorem runNames_keys (ns : List String) :
    ∀ s, (∀ n ∈ ns, n ≠ "") →
      (runNames s ns).mapping.map Prod.fst =
        ns.foldl (fun acc n => if n ∈ acc then acc else acc ++ [n])
          (s.mapping.map Prod.fst) := by
  induction ns with
  | nil =>
    intro s _
    simp [runNames]
  | cons n ns ih =>
    intro s hne
    rw [runNames_cons, List.foldl_cons]
    have hn : n ≠ "" := hne n (List.mem_cons_self n ns)
    by_cases hmem : n ∈ s.mapping.map Prod.fst
    · have hstate : (anonymize s n).1 = s := by
        unfold anonymize
        rw [if_neg hn]
        cases hl : s.mapping.lookup n with
        | some a => rfl
        | none => exact absurd ((lookup_eq_none_iff _ _).mp hl) (by simpa using hmem)
      rw [hstate, if_pos hmem]
      exact ih s (fun x hx => hne x (List.mem_cons_of_mem n hx))
    · have hlook : s.mapping.lookup n = none := (lookup_eq_none_iff _ _).mpr hmem
      have hmap : (anonymize s n).1.mapping =
          s.mapping ++ [(n, aliasFor (s.counter + 1))] := by
        simp [anonymize, hn, hlook]
      rw [if_neg hmem]
      rw [ih (anonymize s n).1 (fun x hx => hne x (List.mem_cons_of_mem n hx))]
      rw [hmap, List.map_append]
      rfl

theorem applyAliases_extend (mapping t : List (String × String))
    (msg : AnonMessage)
    (h : ∀ n ∈ msgNames msg, (mapping.lookup n).isSome) :
    applyAliases (mapping ++ t) msg = applyAliases mapping msg := by
  cases hauth : msg.author with
  | none => simp [applyAliases, hauth]
  | some a =>
    have hu : (mapping.lookup a.username).isSome :=
      h a.username (by simp [msgNames, hauth])
    obtain ⟨au, hau⟩ := Option.isSome_iff_exists.mp hu
    cases hg : a.global_name with
    | none =>
      simp [applyAliases, hauth, hg, aliasIn,
        lookup_append_left _ _ _ _ hau, hau]
    | some g =>
      by_cases hge : g = ""
      · simp [applyAliases, hauth, hg, hge, aliasIn,
          lookup_append_left _ _ _ _ hau, hau]
      · have hgl : (mapping.lookup g).isSome :=
          h g (by simp [msgNames, hauth, hg, hge])
        obtain ⟨ag, hag⟩ := Option.isSome_iff_exists.mp hgl
        simp [applyAliases, hauth, hg, hge, aliasIn,
          lookup_append_left _ _ _ _ hau, hau,
          lookup_append_left _ _ _ _ hag, hag]

theorem anonMsg_run (s : AnonState) (msg : AnonMessage)
    (hne : ∀ n ∈ msgNames msg, n ≠ "") :
    (anonMsg s msg).1 = runNames s (msgNames msg) ∧
    (anonMsg s msg).2 = applyAliases (anonMsg s msg).1.mapping msg ∧
    ∀ n ∈ msgNames msg, ((anonMsg s msg).1.mapping.lookup n).isSome := by
  cases hauth : msg.author with
  | none =>
    refine ⟨by simp [anonMsg, msgNames, hauth, runNames], ?_, ?_⟩
    · cases msg
      simp only at hauth
      simp [anonMsg, applyAliases, hauth]
    · intro n hn
      simp [msgNames, hauth] at hn
  | some a =>
    have hu : a.username ≠ "" := hne a.username (by simp [msgNames, hauth])
    have hres1 := anonymize_result s a.username hu
    cases hg : a.global_name with
    | none =>
      refine ⟨by simp [anonMsg, msgNames, hauth, hg, runNames], ?_, ?_⟩
      · cases msg
        simp only at hauth
        simp [anonMsg, applyAliases, hauth, hg, aliasIn, hres1]
      · intro n hn
        simp only [msgNames, hauth, hg, List.mem_singleton] at hn
        subst hn
        simp [anonMsg, hauth, hg, hres1]
    | some g =>
      by_cases hge : g = ""
      · refine ⟨by simp [anonMsg, msgNames, hauth, hg, hge, runNames], ?_, ?_⟩
        · cases msg
          simp only at hauth
          simp [anonMsg, applyAliases, hauth, hg, hge, aliasIn, hres1]
        · intro n hn
          simp only [msgNames, hauth, hg, hge, if_true, List.mem_singleton,
            List.mem_cons, List.not_mem_nil, or_false] at hn
          subst hn
          simp [anonMsg, hauth, hg, hge, hres1]
      · have hres2 := anonymize_result (anonymize s a.username).1 g hge
        obtain ⟨t, ht⟩ := anonymize_extend (anonymize s a.username).1 g
        have hres1' :
            ((anonymize (anonymize s a.username).1 g).1.mapping).lookup
              a.username = some (anonymize s a.username).2 := by
          rw [ht]
          exact lookup_append_left _ _ _ _ hres1
        refine ⟨?_, ?_, ?_⟩
        · simp [anonMsg, msgNames, hauth, hg, hge, runNames]
        · cases msg
          simp only at hauth
          simp [anonMsg, applyAliases, hauth, hg, hge, aliasIn, hres1', hres2]
        · intro n hn
          simp only [msgNames, hauth, hg, if_neg hge, List.mem_cons,
            List.mem_singleton, List.not_mem_nil, or_false] at hn
          rcases hn with hn | hn
          · subst hn
            simp [anonMsg, hauth, hg, hge, hres1']
          · subst hn
            simp [anonMsg, hauth, hg, hge, hres2]

theorem anonymizeMessagesGo_spec (msgs : List AnonMessage) :
    ∀ s, GoodState s → (∀ n ∈ allNames msgs, n ≠ "") →
      (anonymizeMessagesGo s msgs).2 = runNames s (allNames msgs) ∧
      (anonymizeMessagesGo s msgs).1 =
        msgs.map (applyAliases (anonymizeMessagesGo s msgs).2.mapping) := by
  induction msgs with
  | nil =>
    intro s _ _
    simp [anonymizeMessagesGo, allNames, runNames]
  | cons m ms ih =>
    intro s hs hne
    have hallcons : allNames (m :: ms) = msgNames m ++ allNames ms := by
      simp [allNames]
    have hnem : ∀ n ∈ msgNames m, n ≠ "" := by
      intro n hn
      exact hne n (by rw [hallcons]; exact List.mem_append_left _ hn)
    have hnems : ∀ n ∈ allNames ms, n ≠ "" := by
      intro n hn
      exact hne n (by rw [hallcons]; exact List.mem_append_right _ hn)
    obtain ⟨hstate, hmsg, hsome⟩ := anonMsg_run s m hnem
    have hgood1 : GoodState (anonMsg s m).1 := by
      rw [hstate]
      exact runNames_good _ s hs
    obtain ⟨ihstate, ihout⟩ := ih (anonMsg s m).1 hgood1 hnems
    have hstep : (anonymizeMessagesGo s (m :: ms)).2 =
        (anonymizeMessagesGo (anonMsg s m).1 ms).2 := rfl
    have hstepout : (anonymizeMessagesGo s (m :: ms)).1 =
        (anonMsg s m).2 :: (anonymizeMessagesGo (anonMsg s m).1 ms).1 := rfl
    constructor
    · rw [hstep, ihstate, hallcons, runNames_append, hstate]
    · rw [hstepout, ihout, hstep, List.map_cons]
      obtain ⟨t, hext⟩ := runNames_extend (allNames ms) (anonMsg s m).1
      have hfinmap : (anonymizeMessagesGo (anonMsg s m).1 ms).2.mapping =
          (anonMsg s m).1.mapping ++ t := by
        rw [ihstate]
        exact hext
      rw [hfinmap, applyAliases_extend _ _ _ hsome, ← hmsg]

/-- The alias sequence of the source: User_A .. User_Z, then User_A1,
User_B1 and so on. -/
theorem aliasFor_values :
    aliasFor 1 = "User_A" ∧ aliasFor 2 = "User_B" ∧ aliasFor 26 = "User_Z" ∧
    aliasFor 27 = "User_A1" ∧ aliasFor 28 = "User_B1" ∧
    aliasFor 52 = "User_Z1" ∧ aliasFor 53 = "User_A2" := by
  decide

/-- C8: within one anonymizeMessages call over messages whose author names
are all non-empty, the output equals the pure rename of every message by
the one returned mapping (so every occurrence of the same username gets
the same alias), the mapping's usernames are the distinct input names in
order of first appearance, its aliases are aliasFor 1, aliasFor 2, ... in
that order (the sequence User_A, User_B, ..., User_Z, User_A1, ...), and
distinct usernames are mapped to distinct aliases. -/
theorem anonymizeMessages_spec (msgs : List AnonMessage)
    (h : ∀ n ∈ allNames msgs, n ≠ "") :
    (anonymizeMessages msgs).1 =
      msgs.map (applyAliases (anonymizeMessages msgs).2) ∧
    (anonymizeMessages msgs).2.map Prod.fst =
      firstAppearances (allNames msgs) ∧
    (anonymizeMessages msgs).2.map Prod.snd =
      (List.range (anonymizeMessages msgs).2.length).map
        (fun k => aliasFor (k + 1)) ∧
    ∀ p ∈ (anonymizeMessages msgs).2, ∀ q ∈ (anonymizeMessages msgs).2,
      p.1 ≠ q.1 → p.2 ≠ q.2 := by
  have hgood0 : GoodState ⟨[], 0⟩ := ⟨by simp, by simp⟩
  obtain ⟨hstate, hout⟩ := anonymizeMessagesGo_spec msgs ⟨[], 0⟩ hgood0 h
  have hgoodF : GoodState (anonymizeMessagesGo ⟨[], 0⟩ msgs).2 := by
    rw [hstate]
    exact runNames_good _ _ hgood0
  refine ⟨hout, ?_, ?_, ?_⟩
  · have hkeys := runNames_keys (allNames msgs) ⟨[], 0⟩ h
    rw [← hstate] at hkeys
    simpa [firstAppearances] using hkeys
  · have hv := hgoodF.1
    have hlen : (anonymizeMessagesGo ⟨[], 0⟩ msgs).2.mapping.length =
        (anonymizeMessagesGo ⟨[], 0⟩ msgs).2.counter := by
      have := congrArg List.length hv
      simpa using this
    show (anonymizeMessagesGo ⟨[], 0⟩ msgs).2.mapping.map Prod.snd =
      (List.range (anonymizeMessagesGo ⟨[], 0⟩ msgs).2.mapping.length).map
        (fun k => aliasFor (k + 1))
    rw [hv, hlen]
  · intro p hp q hq hne
    have hsnodup :
        ((anonymizeMessagesGo ⟨[], 0⟩ msgs).2.mapping.map Prod.snd).Nodup := by
      rw [hgoodF.1]
      refine List.Nodup.map_on ?_ (List.nodup_range _)
      intro x _ y _ hxy
      have := aliasFor_inj (x + 1) (y + 1) (by omega) (by omega) hxy
      omega
    have hinj := List.inj_on_of_nodup_map hsnodup
    intro hc
    exact hne (congrArg Prod.fst (hinj hp hq hc))

/-- Witness for anonymizeMessages_spec: two messages, the first authored by
alice, the second by bob whose global name is also alice; alice gets
User_A everywhere, bob gets User_B. -/
theorem anonymizeMessages_spec_witness :
    (∀ n ∈ allNames [⟨some ⟨"alice", none⟩, some "123456"⟩,
        ⟨some ⟨"bob", some "alice"⟩, none⟩], n ≠ "") ∧
    ((anonymizeMessages [⟨some ⟨"alice", none⟩, some "123456"⟩,
        ⟨some ⟨"bob", some "alice"⟩, none⟩]).1 =
      [⟨some ⟨"alice", none⟩, some "123456"⟩,
        ⟨some ⟨"bob", some "alice"⟩, none⟩].map
        (applyAliases (anonymizeMessages [⟨some ⟨"alice", none⟩, some "123456"⟩,
          ⟨some ⟨"bob", some "alice"⟩, none⟩]).2) ∧
    (anonymizeMessages [⟨some ⟨"alice", none⟩, some "123456"⟩,
        ⟨some ⟨"bob", some "alice"⟩, none⟩]).2.map Prod.fst =
      firstAppearances (allNames [⟨some ⟨"alice", none⟩, some "123456"⟩,
        ⟨some ⟨"bob", some "alice"⟩, none⟩]) ∧
    (anonymizeMessages [⟨some ⟨"alice", none⟩, some "123456"⟩,
        ⟨some ⟨"bob", some "alice"⟩, none⟩]).2.map Prod.snd =
      (List.range (anonymizeMessages [⟨some ⟨"alice", none⟩, some "123456"⟩,
        ⟨some ⟨"bob", some "alice"⟩, none⟩]).2.length).map
        (fun k => aliasFor (k + 1)) ∧
    ∀ p ∈ (anonymizeMessages [⟨some ⟨"alice", none⟩, some "123456"⟩,
        ⟨some ⟨"bob", some "alice"⟩, none⟩]).2,
      ∀ q ∈ (anonymizeMessages [⟨some ⟨"alice", none⟩, some "123456"⟩,
        ⟨some ⟨"bob", some "alice"⟩, none⟩]).2,
      p.1 ≠ q.1 → p.2 ≠ q.2) :=
  ⟨by decide,
    anonymizeMessages_spec
      [⟨some ⟨"alice", none⟩, some "123456"⟩,
        ⟨some ⟨"bob", some "alice"⟩, none⟩]
      (by decide)⟩

end Scraper
